import Mathlib

/-!
Verification of the cozo storage-encoding and query-runtime layer.

The Rust sources verified here are `src/data/tuple.rs` (the binary tuple
codec: `Tuple::encode_as_key`, `EncodedTuple::{prefix,arity,get,iter}`)
and `src/runtime/db.rs` (`Db::build`, `Db::do_run_script`, `Db::run_query`,
`RunningQueryCleanup::drop`).  Rust byte buffers (`Vec<u8>`, `&[u8]`) are
embedded as `List Nat` with each element intended below 256; machine
integer casts (`as u32`) are made explicit through `beBytes`, which wraps
modulo 2^32 exactly as the cast does.  Fallible Rust functions returning
`Result` are embedded as `Except`.

The value type `DataValue` and its serde serialization live in
`src/data/value.rs`, which is not part of the sources; they are modelled
from the specification (a tagged union over null, booleans, integers,
floats, strings, lists and the "guard"/"bottom" sentinels, serialized in
a self-describing way, one value after another).
-/

/-- Big-endian byte encoding of `x` on `w` bytes, least significant byte
last.  Mirrors Rust `u32::to_be_bytes` / `u64::to_be_bytes`; like the Rust
casts `as u32`, it wraps modulo `256^w`. -/
def beBytes : Nat → Nat → List Nat
  | 0, _ => []
  | w + 1, x => beBytes w (x / 256) ++ [x % 256]

/-- Big-endian byte decoding, mirrors `u32::from_be_bytes`. -/
def decBE (l : List Nat) : Nat :=
  l.foldl (fun acc b => acc * 256 + b) 0

/-- Modelled from the spec: the tagged value union of `src/data/value.rs`
(absent from the sources).  The spec lists integers, floats, strings,
booleans, lists, a maximal "bottom" sentinel, a minimal "guard" sentinel
and null.  A float is represented by its order-preserving 64-bit key (for
nonnegative IEEE doubles this is the raw bit pattern); a string by its
list of code points. -/
inductive DataValue where
  | Guard : DataValue
  | Null : DataValue
  | Bool : Bool → DataValue
  | Int : Int → DataValue
  | Float : Nat → DataValue
  | Str : List Nat → DataValue
  | Lst : List DataValue → DataValue
  | Bot : DataValue

/-- Two's-complement style order key of a signed 64-bit integer, as stored
inside the serialized form. -/
def intKey (n : Int) : Nat := ((n + 2 ^ 63) % (2 ^ 64 : Int)).toNat

/-- Inverse of `intKey` on the 64-bit range. -/
def intFromKey (k : Nat) : Int := (k : Int) - 2 ^ 63

mutual

/-- Modelled from the spec: the self-describing serialization of one
`DataValue` (the serde implementation lives in the absent
`src/data/value.rs`).  Each value starts with a tag byte identifying its
type; integers and float keys take eight big-endian bytes, strings store
their code points shifted by one and end with a 0 terminator, lists
concatenate their members and end with a closing byte 7. -/
def serializeValue : DataValue → List Nat
  | .Guard => [0]
  | .Null => [1]
  | .Bool b => [2, if b then 1 else 0]
  | .Int n => 3 :: beBytes 8 (intKey n)
  | .Float k => 4 :: beBytes 8 k
  | .Str s => 5 :: (s.map (· + 1) ++ [0])
  | .Lst vs => 6 :: (serializeList vs ++ [7])
  | .Bot => [8]

/-- Serialization of a sequence of values, one after another. -/
def serializeList : List DataValue → List Nat
  | [] => []
  | v :: vs => serializeValue v ++ serializeList vs

end

mutual

/-- Size measure used as decoding fuel: number of decoding steps needed
for one value. -/
def numNodes : DataValue → Nat
  | .Lst vs => listNodes vs + 1
  | _ => 1

/-- Size measure used as decoding fuel for a value sequence followed by
its list terminator. -/
def listNodes : List DataValue → Nat
  | [] => 1
  | v :: vs => numNodes v + listNodes vs

end

mutual

/-- Well-formedness of a modelled value: integers fit in a signed 64-bit
word and float keys in an unsigned one, matching the Rust value domain. -/
def wfValue : DataValue → Bool
  | .Int n => decide (-(2 ^ 63 : Int) ≤ n) && decide (n < 2 ^ 63)
  | .Float k => decide (k < 2 ^ 64)
  | .Lst vs => wfList vs
  | _ => true

/-- Well-formedness of every value of a sequence. -/
def wfList : List DataValue → Bool
  | [] => true
  | v :: vs => wfValue v && wfList vs

end

/-- Decoder of the string payload: code points until the 0 terminator. -/
def decodeStrBytes : List Nat → Option (List Nat × List Nat)
  | [] => none
  | c :: rest =>
    if c = 0 then some ([], rest)
    else (decodeStrBytes rest).map (fun p => ((c - 1) :: p.1, p.2))

mutual

/-- Modelled from the spec: deserialization of one value from a byte
slice, returning the value and the unread remainder (the msgpack reader
of the absent `src/data/value.rs`; like `rmp_serde::from_slice` it leaves
trailing bytes unread).  `fuel` bounds the recursion depth. -/
def decodeValueF : Nat → List Nat → Option (DataValue × List Nat)
  | 0, _ => none
  | _ + 1, [] => none
  | fuel + 1, b :: rest =>
    if b = 0 then some (.Guard, rest)
    else if b = 1 then some (.Null, rest)
    else if b = 2 then
      match rest with
      | [] => none
      | x :: r => some (.Bool (x == 1), r)
    else if b = 3 then
      if 8 ≤ rest.length then
        some (.Int (intFromKey (decBE (rest.take 8))), rest.drop 8)
      else none
    else if b = 4 then
      if 8 ≤ rest.length then some (.Float (decBE (rest.take 8)), rest.drop 8)
      else none
    else if b = 5 then (decodeStrBytes rest).map (fun p => (.Str p.1, p.2))
    else if b = 6 then (decodeListF fuel rest).map (fun p => (.Lst p.1, p.2))
    else if b = 8 then some (.Bot, rest)
    else none

/-- Deserialization of a value sequence up to its closing byte 7. -/
def decodeListF : Nat → List Nat → Option (List DataValue × List Nat)
  | 0, _ => none
  | _ + 1, [] => none
  | fuel + 1, b :: rest =>
    if b = 7 then some ([], rest)
    else
      match decodeValueF fuel (b :: rest) with
      | some (v, r) => (decodeListF fuel r).map (fun p => (v :: p.1, p.2))
      | none => none

end

/-- In-place overwrite of the bytes of `l` starting at `pos` with `bs`.
Embeds the Rust loop `for (i, u) in pos.iter().enumerate() { ret[4*(1+idx)+i] = *u }`
of `Tuple::encode_as_key`; every write performed there is in bounds, where
this equals element-wise assignment. -/
def writeAt (l : List Nat) (pos : Nat) (bs : List Nat) : List Nat :=
  l.take pos ++ bs ++ l.drop (pos + bs.length)

/-- Embeds Rust `Vec::resize(n, 0)`: truncate when `n` is below the
current length, else pad with zeros. -/
def listResize (l : List Nat) (n : Nat) : List Nat :=
  l.take n ++ List.replicate (n - l.length) 0

/-- The value loop of `Tuple::encode_as_key`: for each value, when its
index is positive, first overwrite the offset-table slot `4*(1+idx)` with
the current buffer length as big-endian `u32`, then append the value's
serialization. -/
def encodeLoop : List Nat → List DataValue → Nat → List Nat
  | ret, [], _ => ret
  | ret, v :: vs, idx =>
    encodeLoop
      ((if 0 < idx then writeAt ret (4 * (1 + idx)) (beBytes 4 ret.length)
        else ret) ++ serializeValue v)
      vs (idx + 1)

/-- Embeds `Tuple::encode_as_key(prefix)` of `src/data/tuple.rs`: extend
with the 4-byte big-endian partition prefix, the 4-byte big-endian arity,
resize to `4*(len+1)` (zero-filling the offset table — or truncating when
the tuple is empty), then run the value loop. -/
def encode_as_key (t : List DataValue) (pfx : Nat) : List Nat :=
  let len := t.length
  let ret := beBytes 4 pfx ++ beBytes 4 len
  let ret2 := listResize ret (4 * (len + 1))
  encodeLoop ret2 t 0

/-- Accumulated effect of the offset-table writes of the encode loop on
the header region. -/
def hdrWrites (hdr : List Nat) (idx curLen : Nat) : List DataValue → List Nat
  | [] => hdr
  | v :: vs =>
    hdrWrites (writeAt hdr (4 * (1 + idx)) (beBytes 4 curLen)) (idx + 1)
      (curLen + (serializeValue v).length) vs

/-- The offset-table bytes produced when the running buffer length starts
at `c`: one 4-byte big-endian entry per value, each entry the length
before that value's serialization is appended. -/
def tableFrom (c : Nat) : List DataValue → List Nat
  | [] => []
  | v :: vs => beBytes 4 c ++ tableFrom (c + (serializeValue v).length) vs

/-- Byte offset at which the `i`-th value's serialization starts inside
an encoded tuple: right after the `4*(arity+1)`-byte header plus the
serializations of the values before it. -/
def tupleOffset (t : List DataValue) (i : Nat) : Nat :=
  4 * (t.length + 1) + (serializeList (t.take i)).length

/-- The offset table actually produced by `encode_as_key`: one 4-byte
big-endian entry for each of the 2nd..nth values. -/
def offsetTable (t : List DataValue) : List Nat :=
  ((List.range (t.length - 1)).map
    (fun j => beBytes 4 (tupleOffset t (j + 1)))).flatten

/-- Embeds `TupleError::BadData` of `src/data/tuple.rs` (the data-corruption
error) together with the value-decoding failure that `get` can forward
from the msgpack reader through `anyhow`. -/
inductive TupleErr where
  | badData : String → List Nat → TupleErr
  | valueDecode : List Nat → TupleErr
deriving DecidableEq

deriving instance DecidableEq for Except

/-- Embeds `EncodedTuple::prefix`: fails when the slice is shorter than 4
bytes, else reads the first four bytes big-endian. -/
def EncodedTuple.prefixVal (bs : List Nat) : Except TupleErr Nat :=
  if bs.length < 4 then .error (.badData "bad data length" bs)
  else .ok (decBE (bs.take 4))

/-- Embeds `EncodedTuple::arity`: fails when the slice is shorter than 8
bytes, else reads bytes 4..8 big-endian. -/
def EncodedTuple.arity (bs : List Nat) : Except TupleErr Nat :=
  if bs.length < 8 then .error (.badData "bad data length" bs)
  else .ok (decBE ((bs.drop 4).take 4))

/-- Position-resolution step of `EncodedTuple::get` of `src/data/tuple.rs`:
index 0 resolves to the implicit header-end offset `4*(arity+1)` (with
`arity` read from the slice), a positive index reads the offset table at
`(idx+1)*4`, failing with the data-corruption error when the table is
truncated. -/
def EncodedTuple.getPos (bs : List Nat) (idx : Nat) : Except TupleErr Nat :=
  if idx = 0 then (EncodedTuple.arity bs).map (fun a => 4 * (a + 1))
  else if bs.length < (idx + 1) * 4 + 4 then
    .error (.badData "bad data length" bs)
  else .ok (decBE ((bs.drop ((idx + 1) * 4)).take 4))

/-- Decoding step of `EncodedTuple::get` once the start position is
resolved: a position at or past the end of the slice fails with the
data-corruption error, otherwise one value is decoded starting there,
trailing bytes ignored. -/
def EncodedTuple.getAt (bs : List Nat) (pos : Nat) : Except TupleErr DataValue :=
  if bs.length ≤ pos then .error (.badData "bad data length" bs)
  else
    match decodeValueF (bs.length - pos) (bs.drop pos) with
    | some p => .ok p.1
    | none => .error (.valueDecode (bs.drop pos))

/-- Embeds `EncodedTuple::get` of `src/data/tuple.rs`: resolve the start
position of the requested field, propagating its error, then decode one
value there. -/
def EncodedTuple.get (bs : List Nat) (idx : Nat) : Except TupleErr DataValue :=
  match EncodedTuple.getPos bs idx with
  | .error e => .error e
  | .ok pos => EncodedTuple.getAt bs pos

/-- Embeds the state of `EncodedTupleIter` of `src/data/tuple.rs`. -/
structure EncIter where
  bytes : List Nat
  size : Nat
  pos : Nat

/-- Tail of `EncodedTupleIter::next` once `size` holds the arity: stop
when `pos == size`, else yield `get(pos)` and advance `pos`. -/
def iterNextCont (it : EncIter) : Option (Except TupleErr DataValue) × EncIter :=
  if it.pos = it.size then (none, it)
  else (some (EncodedTuple.get it.bytes it.pos), ⟨it.bytes, it.size, it.pos + 1⟩)

/-- Embeds `EncodedTupleIter::next`: when `size` is still 0 the arity is
read first — on failure the item is that error and the state is left
unchanged — then one field is yielded per call. -/
def iterNext (it : EncIter) : Option (Except TupleErr DataValue) × EncIter :=
  if it.size = 0 then
    match EncodedTuple.arity it.bytes with
    | .error e => (some (.error e), it)
    | .ok a => iterNextCont ⟨it.bytes, a, it.pos⟩
  else iterNextCont it

/-- Embeds `EncodedTuple::iter`: a fresh iterator over the slice with
`size = 0`, `pos = 0`. -/
def mkIter (bs : List Nat) : EncIter := ⟨bs, 0, 0⟩

/-- Drives the iterator for at most `fuel` calls, collecting the items
yielded before the first `none`. -/
def runIter : EncIter → Nat → List (Except TupleErr DataValue)
  | _, 0 => []
  | it, fuel + 1 =>
    match iterNext it with
    | (none, _) => []
    | (some x, it2) => x :: runIter it2 fuel

/-- Lexicographic comparison of two byte slices, the order in which the
underlying store compares raw keys (memcmp order, a strict prefix sorting
first). -/
def byteCompare : List Nat → List Nat → Ordering
  | [], [] => .eq
  | [], _ :: _ => .lt
  | _ :: _, [] => .gt
  | a :: as, b :: bs =>
    if a < b then .lt
    else if b < a then .gt
    else byteCompare as bs

/-- Modelled from the spec: rank of each value constructor in the strict
total order of the value domain ("guard" sentinel minimal, "bottom"
sentinel maximal, distinct types ordered consistently with their byte
encoding tags). -/
def typeRank : DataValue → Nat
  | .Guard => 0
  | .Null => 1
  | .Bool _ => 2
  | .Int _ => 3
  | .Float _ => 4
  | .Str _ => 5
  | .Lst _ => 6
  | .Bot => 7

mutual

/-- Modelled from the spec: the strict total order on the value domain of
the absent `src/data/value.rs` (numeric values compare numerically within
their type, strings by code point, lists lexicographically; values of
distinct types by rank). -/
def valueCompare : DataValue → DataValue → Ordering
  | .Bool a, .Bool b => compare a b
  | .Int a, .Int b => compare a b
  | .Float a, .Float b => compare a b
  | .Str a, .Str b => byteCompare a b
  | .Lst a, .Lst b => valueListCompare a b
  | a, b => compare (typeRank a) (typeRank b)

/-- Value-wise lexicographic comparison of two tuples (value sequences),
a strict prefix sorting first. -/
def valueListCompare : List DataValue → List DataValue → Ordering
  | [], [] => .eq
  | [], _ :: _ => .lt
  | _ :: _, [] => .gt
  | a :: as, b :: bs =>
    match valueCompare a b with
    | .eq => valueListCompare as bs
    | o => o

end

/-- Collects a list of optional results, failing when any is `none`. -/
def sequenceOpt {α : Type} : List (Option α) → Option (List α)
  | [] => some []
  | o :: os =>
    match o with
    | none => none
    | some x =>
      match sequenceOpt os with
      | none => none
      | some xs => some (x :: xs)

/-- Full decoding of an encoded tuple: partition prefix, arity, then
every field through `EncodedTuple.get`. -/
def decodeTuple (bs : List Nat) : Option (Nat × List DataValue) :=
  match EncodedTuple.prefixVal bs with
  | .error _ => none
  | .ok p =>
    match EncodedTuple.arity bs with
    | .error _ => none
    | .ok a =>
      match sequenceOpt ((List.range a).map
          (fun i => (EncodedTuple.get bs i).toOption)) with
      | some vs => some (p, vs)
      | none => none

/-- Modelled from the spec: the custom storage comparator
(`compare_tuple_keys` behind the `cozo_cmp_v1` hook, absent from the
sources), which the spec requires to compare two encoded tuples by
decoding them and comparing partition prefix first, then the value
sequences value-by-value; undecodable slices fall back to raw byte
order. -/
def compareTupleKeys (b1 b2 : List Nat) : Ordering :=
  match decodeTuple b1, decodeTuple b2 with
  | some pv1, some pv2 =>
    if pv1.1 < pv2.1 then .lt
    else if pv2.1 < pv1.1 then .gt
    else valueListCompare pv1.2 pv2.2
  | _, _ => byteCompare b1 b2

/-- Result of the `k`-th call (0-based) to `next` on an iterator. -/
def iterNth (it : EncIter) : Nat → Option (Except TupleErr DataValue)
  | 0 => (iterNext it).1
  | k + 1 => iterNth (iterNext it).2 k

/-- Concrete scenario tuple of the spec: `[1, 2.0, "my_name_is"]`, the
float modelled by its order key `2^62` (the bit pattern of 2.0) and the
string by its code points. -/
def scenarioTuple : List DataValue :=
  [DataValue.Int 1, DataValue.Float (2 ^ 62),
   DataValue.Str [109, 121, 95, 110, 97, 109, 101, 95, 105, 115]]

/-- Modelled from the spec: a source span attached to a statement (the
parser of `src/parse` is absent from the sources; only its being carried
into error reports matters here). -/
structure SourceSpan where
  start : Nat
  len : Nat
deriving DecidableEq

/-- Modelled from the spec: the output modes of a query writing into a
stored relation (`RelationOp` of the absent `src/data/program.rs`):
`CREATE`, `RE-DERIVE`, `PUT`, `REMOVE`. -/
inductive RelationOp where
  | Create : RelationOp
  | ReDerive : RelationOp
  | Put : RelationOp
  | Rm : RelationOp
deriving DecidableEq

/-- Modelled from the spec: catalog entry of a stored relation (name and
schema, the schema abstracted as its list of column name/type pairs;
`runtime/relation.rs` is absent from the sources). -/
structure RelationHandle where
  name : String
  schema : List (String × String)
deriving DecidableEq

/-- Modelled from the spec: the declared output head of a program
targeting a stored relation, carrying the same shape as a handle. -/
structure RelationMeta where
  name : String
  schema : List (String × String)
deriving DecidableEq

/-- Embeds `QueryAssertion` of `src/data/program.rs` as used by
`Db::run_query`: result-cardinality assertions carrying the asserting
statement's span. -/
inductive QueryAssertion where
  | AssertNone : SourceSpan → QueryAssertion
  | AssertSome : SourceSpan → QueryAssertion
deriving DecidableEq

/-- Errors surfaced by the modelled runtime paths of `src/runtime/db.rs`:
relation conflict and not-found, schema incompatibility, the two
assertion failures (carrying the asserting span), the cooperative-kill
error and a generic evaluation failure. -/
inductive QueryError where
  | storedRelationConflict : String → QueryError
  | storedRelationNotFound : String → QueryError
  | schemaIncompatible : String → QueryError
  | assertNoneFailure : List DataValue → SourceSpan → QueryError
  | assertSomeFailure : SourceSpan → QueryError
  | processKilled : QueryError
  | evalError : String → QueryError

/-- The in-session relation catalog: name to handle. -/
def Catalog : Type := List (String × RelationHandle)

/-- Modelled from the spec: `SessionTx::relation_exists`. -/
def relation_exists (cat : Catalog) (name : String) : Bool :=
  (List.lookup name cat).isSome

/-- Modelled from the spec: `SessionTx::get_relation`, which fails with
the relation-not-found error when the name is absent. -/
def get_relation (cat : Catalog) (name : String) :
    Except QueryError RelationHandle :=
  match List.lookup name cat with
  | some h => .ok h
  | none => .error (.storedRelationNotFound name)

/-- Modelled from the spec: `RelationHandle::ensure_compatible`, the
schema-compatibility check (column count, names, types) against the
declared head; incompatibility is a hard error. -/
def ensure_compatible (h : RelationHandle) (meta : RelationMeta) :
    Except QueryError Unit :=
  if h.schema = meta.schema then .ok ()
  else .error (.schemaIncompatible meta.name)

/-- Embeds the output-relation checks at the top of `Db::run_query`
(lines 287-313 of `src/runtime/db.rs`): `CREATE` requires the name to be
absent, any mode other than `CREATE` and `RE-DERIVE` looks the relation
up (failing when absent), re-checks existence, then checks schema
compatibility; `RE-DERIVE` skips the whole block. -/
def checkStoreRelation (cat : Catalog) (meta : RelationMeta)
    (op : RelationOp) : Except QueryError Unit :=
  if op = RelationOp.Create then
    if relation_exists cat meta.name then
      .error (.storedRelationConflict meta.name)
    else .ok ()
  else if op ≠ RelationOp.ReDerive then
    match get_relation cat meta.name with
    | .error e => .error e
    | .ok existing =>
      if relation_exists cat meta.name then ensure_compatible existing meta
      else .error (.storedRelationNotFound meta.name)
  else .ok ()

/-- Embeds the assertion check of `Db::run_query` (lines 354-381):
`AssertNone` fails on the first tuple of the result, citing the span;
`AssertSome` fails, citing the span, when the result has no first
tuple. -/
def checkAssertion (a : Option QueryAssertion)
    (rows : List (List DataValue)) : Except QueryError Unit :=
  match a with
  | none => .ok ()
  | some (.AssertNone span) =>
    match rows.head? with
    | some tuple => .error (.assertNoneFailure tuple span)
    | none => .ok ()
  | some (.AssertSome span) =>
    match rows.head? with
    | some _ => .ok ()
    | none => .error (.assertSomeFailure span)

/-- Shared state of the running-queries registry: the map from query id
to its start time, and the per-query shared poison flags (the
`Arc<AtomicBool>` of each `Poison`, keyed by the query id owning it). -/
structure QueryRegistryState where
  registry : List (Nat × Nat)
  poisons : Nat → Bool

/-- Embeds `RunningQueryCleanup::drop` of `src/runtime/db.rs`: remove the
entry from the registry and, when a handle was present, force its poison
flag true. -/
def cleanupDrop (id : Nat) (st : QueryRegistryState) : QueryRegistryState :=
  match List.lookup id st.registry with
  | some _ =>
    ⟨st.registry.filter (fun p => p.1 != id),
      fun j => if j = id then true else st.poisons j⟩
  | none => ⟨st.registry.filter (fun p => p.1 != id), st.poisons⟩

/-- The parts of one parsed query statement that the modelled
`Db::run_query` paths consume: the optional output relation and mode, the
optional assertion, and the outcome of evaluating the compiled program
(the pipeline in between — normalize, stratify, magic sets, compile,
evaluate — is outside the modelled slice, so its result is a datum; a
poisoned evaluation shows up as the process-killed error). -/
structure InputProgramModel where
  storeRelation : Option (RelationMeta × RelationOp)
  assertion : Option QueryAssertion
  evalResult : Except QueryError (List (List DataValue))

/-- Embeds the control flow of `Db::run_query` of `src/runtime/db.rs`
around one query: run the output-relation checks (before anything is
registered), then register the query under its fresh id, evaluate, check
the assertion, and — on every exit path of that scope — run the cleanup
guard. -/
def Db.run_query (cat : Catalog) (st : QueryRegistryState)
    (id startedAt : Nat) (q : InputProgramModel) :
    Except QueryError (List (List DataValue)) × QueryRegistryState :=
  match
    (match q.storeRelation with
     | some (meta, op) => checkStoreRelation cat meta op
     | none => .ok ()) with
  | .error e => (.error e, st)
  | .ok () =>
    let st1 : QueryRegistryState := ⟨(id, startedAt) :: st.registry, st.poisons⟩
    let res : Except QueryError (List (List DataValue)) :=
      match q.evalResult with
      | .error e => .error e
      | .ok rows =>
        match checkAssertion q.assertion rows with
        | .error e => .error e
        | .ok () => .ok rows
    (res, cleanupDrop id st1)

/-- Embeds `DbManifest`/`CURRENT_STORAGE_VERSION` of `src/runtime/db.rs`. -/
def CURRENT_STORAGE_VERSION : Nat := 1

/-- External effects performed by `Db::build`, in order. -/
inductive BuildEffect where
  | createDir : BuildEffect
  | readManifest : BuildEffect
  | writeManifest : Nat → BuildEffect
  | openStore : BuildEffect
  | beginTransact : BuildEffect
deriving DecidableEq

/-- Outcome of `Db::build`. -/
inductive BuildOutcome where
  | opened : Bool → BuildOutcome
  | versionMismatch : Nat → Nat → BuildOutcome
deriving DecidableEq

/-- Embeds `Db::build` of `src/runtime/db.rs` as the trace of its
external effects given the manifest on disk (`none` when no manifest
file exists, `some v` its recorded storage version): create the data
directory; when a manifest exists, read it and compare its version for
equality with `CURRENT_STORAGE_VERSION`, aborting on mismatch before the
store is opened or any transaction begins; when none exists, write the
record `{ storage_version: 1 }` once; then open the store and load the
last relation-store id, which begins a transaction. -/
def Db.build (manifest : Option Nat) : List BuildEffect × BuildOutcome :=
  match manifest with
  | some v =>
    if v = CURRENT_STORAGE_VERSION then
      ([BuildEffect.createDir, BuildEffect.readManifest,
        BuildEffect.openStore, BuildEffect.beginTransact],
        BuildOutcome.opened false)
    else
      ([BuildEffect.createDir, BuildEffect.readManifest],
        BuildOutcome.versionMismatch v CURRENT_STORAGE_VERSION)
  | none =>
    ([BuildEffect.createDir, BuildEffect.writeManifest CURRENT_STORAGE_VERSION,
      BuildEffect.openStore, BuildEffect.beginTransact],
      BuildOutcome.opened true)

/-- Loop body of the `Multi` branch of `Db::do_run_script`: run each
statement in order, overwriting the result and extending the cleanups,
aborting on error. -/
def doRunScriptLoop {σ ρ γ : Type} (f : σ → Except QueryError (ρ × List γ)) :
    List σ → ρ → List γ → Except QueryError (ρ × List γ)
  | [], res, cls => .ok (res, cls)
  | p :: ps, _res, cls =>
    match f p with
    | .error e => .error e
    | .ok rc => doRunScriptLoop f ps rc.1 (cls ++ rc.2)

/-- Embeds the `Multi` branch of `Db::do_run_script` of
`src/runtime/db.rs`: `res` starts as `json!(null)`, each statement's
`run_query` result overwrites it and its cleanups are accumulated, and
only the final `res` is returned together with all cleanups (which are
applied after commit). -/
def Db.do_run_script {σ ρ γ : Type} (jnull : ρ)
    (f : σ → Except QueryError (ρ × List γ)) (ps : List σ) :
    Except QueryError (ρ × List γ) :=
  doRunScriptLoop f ps jnull []

/-- Success of every statement of a script, collecting the per-statement
results in order (the hypothesis shape used to state C10). -/
def mapExcept {σ τ : Type} (f : σ → Except QueryError τ) :
    List σ → Except QueryError (List τ)
  | [] => .ok []
  | p :: ps =>
    match f p with
    | .error e => .error e
    | .ok r =>
      match mapExcept f ps with
      | .error e => .error e
      | .ok rs => .ok (r :: rs)

theorem length_beBytes (w x : Nat) : (beBytes w x).length = w := by
  induction w generalizing x with
  | zero => rfl
  | succ k ih => simp [beBytes, ih]

theorem decBE_append_single (l : List Nat) (b : Nat) :
    decBE (l ++ [b]) = decBE l * 256 + b := by
  simp [decBE, List.foldl_append]

theorem decBE_beBytes (w x : Nat) : decBE (beBytes w x) = x % 256 ^ w := by
  induction w generalizing x with
  | zero => simp [beBytes, decBE, Nat.mod_one]
  | succ k ih =>
    rw [beBytes, decBE_append_single, ih]
    have h : x % (256 * 256 ^ k) = x % 256 + 256 * (x / 256 % 256 ^ k) :=
      Nat.mod_mul
    have hp : (256 : Nat) ^ (k + 1) = 256 * 256 ^ k := by ring
    rw [hp, h]
    ring

theorem decBE_beBytes_of_lt {w x : Nat} (h : x < 256 ^ w) :
    decBE (beBytes w x) = x := by
  rw [decBE_beBytes, Nat.mod_eq_of_lt h]

theorem serializeList_append (a b : List DataValue) :
    serializeList (a ++ b) = serializeList a ++ serializeList b := by
  induction a with
  | nil => simp [serializeList]
  | cons v vs ih => simp [serializeList, ih]

theorem serializeValue_head (v : DataValue) :
    ∃ b tl, serializeValue v = b :: tl ∧ b ≠ 7 := by
  cases v <;> simp [serializeValue]

theorem serializeValue_length_pos (v : DataValue) :
    1 ≤ (serializeValue v).length := by
  obtain ⟨b, tl, h, -⟩ := serializeValue_head v
  simp [h]

theorem serializeList_length_pos {t : List DataValue} (h : t ≠ []) :
    1 ≤ (serializeList t).length := by
  cases t with
  | nil => simp at h
  | cons v vs =>
    have := serializeValue_length_pos v
    simp [serializeList]
    omega

theorem one_le_numNodes (v : DataValue) : 1 ≤ numNodes v := by
  cases v <;> simp [numNodes]

theorem one_le_listNodes (vs : List DataValue) : 1 ≤ listNodes vs := by
  cases vs with
  | nil => simp [listNodes]
  | cons v vs =>
    have := one_le_numNodes v
    simp [listNodes]
    omega

mutual

theorem numNodes_le_length (v : DataValue) :
    numNodes v ≤ (serializeValue v).length := by
  cases v with
  | Lst vs =>
    have h := listNodes_le_length vs
    simp [numNodes, serializeValue]
    omega
  | _ => simp [numNodes, serializeValue]

theorem listNodes_le_length (vs : List DataValue) :
    listNodes vs ≤ (serializeList vs).length + 1 := by
  cases vs with
  | nil => simp [listNodes, serializeList]
  | cons v vs =>
    have h1 := numNodes_le_length v
    have h2 := listNodes_le_length vs
    have h3 := one_le_listNodes vs
    simp [listNodes, serializeList]
    omega

end

theorem intKey_lt (n : Int) : intKey n < 2 ^ 64 := by
  have h1 : (0 : Int) < 2 ^ 64 := by norm_num
  have h2 := Int.emod_lt_of_pos (n + 2 ^ 63) h1
  have h3 := Int.emod_nonneg (n + 2 ^ 63) (by norm_num : (2 ^ 64 : Int) ≠ 0)
  unfold intKey
  omega

theorem intFromKey_intKey {n : Int} (h1 : -(2 ^ 63 : Int) ≤ n)
    (h2 : n < 2 ^ 63) : intFromKey (intKey n) = n := by
  have hmod : (n + 2 ^ 63) % (2 ^ 64 : Int) = n + 2 ^ 63 :=
    Int.emod_eq_of_lt (by omega) (by omega)
  unfold intFromKey intKey
  rw [hmod]
  omega

theorem decodeStrBytes_roundtrip (s rest : List Nat) :
    decodeStrBytes (s.map (· + 1) ++ 0 :: rest) = some (s, rest) := by
  induction s with
  | nil => simp [decodeStrBytes]
  | cons c cs ih => simp [decodeStrBytes, ih]

theorem decode_roundtrip : ∀ fuel : Nat,
    (∀ v rest, wfValue v = true → numNodes v ≤ fuel →
      decodeValueF fuel (serializeValue v ++ rest) = some (v, rest)) ∧
    (∀ vs rest, wfList vs = true → listNodes vs ≤ fuel →
      decodeListF fuel (serializeList vs ++ 7 :: rest) = some (vs, rest)) := by
  intro fuel
  induction fuel with
  | zero =>
    constructor
    · intro v rest _ hn
      have := one_le_numNodes v
      omega
    · intro vs rest _ hn
      have := one_le_listNodes vs
      omega
  | succ k ih =>
    constructor
    · intro v rest hwf hn
      cases v with
      | Guard => simp [serializeValue, decodeValueF]
      | Null => simp [serializeValue, decodeValueF]
      | Bool b => cases b <;> simp [serializeValue, decodeValueF]
      | Int n =>
        simp only [wfValue, Bool.and_eq_true, decide_eq_true_eq] at hwf
        have hlt : intKey n < 256 ^ 8 := by
          have := intKey_lt n
          norm_num
          omega
        simp [serializeValue, decodeValueF, length_beBytes,
          List.take_append_of_le_length, List.drop_append_of_le_length,
          List.take_of_length_le, List.drop_of_length_le]
        rw [decBE_beBytes_of_lt hlt, intFromKey_intKey hwf.1 hwf.2]
      | Float fk =>
        simp only [wfValue, decide_eq_true_eq] at hwf
        have hlt : fk < 256 ^ 8 := by
          norm_num
          omega
        simp [serializeValue, decodeValueF, length_beBytes,
          List.take_append_of_le_length, List.drop_append_of_le_length,
          List.take_of_length_le, List.drop_of_length_le]
        exact decBE_beBytes_of_lt hlt
      | Str s =>
        simp [serializeValue, decodeValueF]
        exact decodeStrBytes_roundtrip s rest
      | Lst vs =>
        simp only [wfValue] at hwf
        have hnn : listNodes vs ≤ k := by
          simp only [numNodes] at hn
          omega
        simp [serializeValue, decodeValueF]
        rw [ih.2 vs rest hwf hnn]
      | Bot => simp [serializeValue, decodeValueF]
    · intro vs rest hwf hn
      cases vs with
      | nil => simp [serializeList, decodeListF]
      | cons v vs' =>
        simp only [wfList, Bool.and_eq_true] at hwf
        simp only [listNodes] at hn
        have h1 := one_le_numNodes v
        have h2 := one_le_listNodes vs'
        obtain ⟨b, tl, hser, hb7⟩ := serializeValue_head v
        have hbytes : serializeList (v :: vs') ++ 7 :: rest =
            b :: (tl ++ (serializeList vs' ++ 7 :: rest)) := by
          simp [serializeList, hser]
        rw [hbytes, decodeListF]
        have hv : decodeValueF k (b :: (tl ++ (serializeList vs' ++ 7 :: rest)))
            = some (v, serializeList vs' ++ 7 :: rest) := by
          have := ih.1 v (serializeList vs' ++ 7 :: rest) hwf.1 (by omega)
          rwa [hser, List.cons_append] at this
        simp [hb7, hv, ih.2 vs' rest hwf.2 (by omega)]

theorem length_writeAt {l bs : List Nat} {pos : Nat}
    (h : pos + bs.length ≤ l.length) :
    (writeAt l pos bs).length = l.length := by
  simp [writeAt]
  omega

theorem writeAt_append_right {l₁ l₂ bs : List Nat} {pos : Nat}
    (h : pos + bs.length ≤ l₁.length) :
    writeAt (l₁ ++ l₂) pos bs = writeAt l₁ pos bs ++ l₂ := by
  unfold writeAt
  rw [List.take_append_of_le_length (by omega),
    List.drop_append_of_le_length (by omega)]
  simp

theorem writeAt_boundary (A Z bs : List Nat) :
    writeAt (A ++ Z) A.length bs = A ++ bs ++ Z.drop bs.length := by
  unfold writeAt
  rw [List.take_left, List.drop_append]

theorem encodeLoop_split (vs : List DataValue) :
    ∀ (idx : Nat) (hdr pl : List Nat), 1 ≤ idx →
      4 * (idx + vs.length) + 4 ≤ hdr.length →
      encodeLoop (hdr ++ pl) vs idx =
        hdrWrites hdr idx (hdr.length + pl.length) vs ++ pl ++
          serializeList vs := by
  induction vs with
  | nil =>
    intro idx hdr pl _ _
    simp [encodeLoop, hdrWrites, serializeList]
  | cons v vs ih =>
    intro idx hdr pl hidx hlen
    simp only [List.length_cons] at hlen
    have hbound : 4 * (1 + idx) + (beBytes 4 (hdr.length + pl.length)).length
        ≤ hdr.length := by
      simp only [length_beBytes]
      omega
    rw [encodeLoop, if_pos (by omega : 0 < idx)]
    rw [show (hdr ++ pl).length = hdr.length + pl.length from by simp]
    rw [writeAt_append_right hbound, List.append_assoc]
    rw [ih (idx + 1) (writeAt hdr (4 * (1 + idx))
        (beBytes 4 (hdr.length + pl.length))) (pl ++ serializeValue v)
      (by omega)
      (by rw [length_writeAt hbound]; omega)]
    rw [length_writeAt hbound]
    simp only [hdrWrites, serializeList, List.length_append]
    simp [List.append_assoc, Nat.add_assoc]

theorem hdrWrites_closed (vs : List DataValue) :
    ∀ (idx c : Nat) (A Z : List Nat), A.length = 4 * (1 + idx) →
      Z.length = 4 * vs.length →
      hdrWrites (A ++ Z) idx c vs = A ++ tableFrom c vs := by
  induction vs with
  | nil =>
    intro idx c A Z _ hZ
    simp only [List.length_nil, Nat.mul_zero] at hZ
    have hZnil : Z = [] := List.length_eq_zero.mp hZ
    simp [hdrWrites, tableFrom, hZnil]
  | cons v vs ih =>
    intro idx c A Z hA hZ
    simp only [List.length_cons] at hZ
    rw [hdrWrites]
    rw [show 4 * (1 + idx) = A.length from hA.symm, writeAt_boundary]
    have hA' : (A ++ beBytes 4 c).length = 4 * (1 + (idx + 1)) := by
      simp only [List.length_append, length_beBytes, hA]
      omega
    have hZ' : (Z.drop (beBytes 4 c).length).length = 4 * vs.length := by
      simp only [List.length_drop, length_beBytes]
      omega
    rw [ih (idx + 1) (c + (serializeValue v).length) (A ++ beBytes 4 c)
        (Z.drop (beBytes 4 c).length) hA' hZ']
    simp [tableFrom, List.append_assoc]

theorem tableFrom_eq (vs : List DataValue) : ∀ c : Nat,
    tableFrom c vs =
      ((List.range vs.length).map
        (fun j => beBytes 4 (c + (serializeList (vs.take j)).length))).flatten := by
  induction vs with
  | nil => intro c; simp [tableFrom]
  | cons v vs ih =>
    intro c
    rw [tableFrom, ih (c + (serializeValue v).length)]
    simp only [List.length_cons, List.range_succ_eq_map, List.map_cons,
      List.flatten_cons, List.map_map]
    congr 1
    congr 1
    apply List.map_congr_left
    intro j _
    simp only [Function.comp_apply, Nat.succ_eq_add_one, List.take_succ_cons,
      serializeList, List.length_append]
    congr 1
    omega

theorem encode_as_key_layout (t : List DataValue) (pfx : Nat)
    (h : 1 ≤ t.length) :
    encode_as_key t pfx =
      beBytes 4 pfx ++ beBytes 4 t.length ++ offsetTable t ++
        serializeList t := by
  cases t with
  | nil => simp at h
  | cons v vs =>
    have hlen8 : (beBytes 4 pfx ++ beBytes 4 (v :: vs).length).length = 8 := by
      simp [length_beBytes]
    have hresize :
        listResize (beBytes 4 pfx ++ beBytes 4 (v :: vs).length)
          (4 * ((v :: vs).length + 1)) =
        (beBytes 4 pfx ++ beBytes 4 (v :: vs).length) ++
          List.replicate (4 * vs.length) 0 := by
      have hle : (beBytes 4 pfx ++ beBytes 4 (v :: vs).length).length ≤
          4 * ((v :: vs).length + 1) := by
        rw [hlen8]
        simp only [List.length_cons]
        omega
      have hsub : 4 * ((v :: vs).length + 1) -
          (beBytes 4 pfx ++ beBytes 4 (v :: vs).length).length =
          4 * vs.length := by
        rw [hlen8]
        simp only [List.length_cons]
        omega
      unfold listResize
      rw [List.take_of_length_le hle, hsub]
    unfold encode_as_key
    simp only []
    rw [hresize]
    rw [encodeLoop, if_neg (by omega), Nat.zero_add]
    rw [encodeLoop_split vs 1
      ((beBytes 4 pfx ++ beBytes 4 (v :: vs).length) ++
        List.replicate (4 * vs.length) 0)
      (serializeValue v) (by omega)
      (by simp [length_beBytes]; omega)]
    rw [hdrWrites_closed vs 1 _ (beBytes 4 pfx ++ beBytes 4 (v :: vs).length)
      (List.replicate (4 * vs.length) 0) (by simp [length_beBytes]) (by simp)]
    have hc : ((beBytes 4 pfx ++ beBytes 4 (v :: vs).length) ++
        List.replicate (4 * vs.length) 0).length + (serializeValue v).length =
        4 * ((v :: vs).length + 1) + (serializeValue v).length := by
      simp [length_beBytes]
      omega
    rw [hc]
    have htable : tableFrom (4 * ((v :: vs).length + 1) +
        (serializeValue v).length) vs = offsetTable (v :: vs) := by
      rw [tableFrom_eq]
      unfold offsetTable
      simp only [List.length_cons, Nat.add_sub_cancel]
      congr 1
      apply List.map_congr_left
      intro j _
      unfold tupleOffset
      simp only [List.take_succ_cons, serializeList, List.length_append,
        List.length_cons]
      congr 1
      omega
    rw [htable]
    simp [serializeList, List.append_assoc]

theorem get_eq_of_pos {bs : List Nat} {idx pos : Nat}
    (h : EncodedTuple.getPos bs idx = .ok pos) :
    EncodedTuple.get bs idx = EncodedTuple.getAt bs pos := by
  unfold EncodedTuple.get
  rw [h]

theorem get_eq_of_err {bs : List Nat} {idx : Nat} {e : TupleErr}
    (h : EncodedTuple.getPos bs idx = .error e) :
    EncodedTuple.get bs idx = .error e := by
  unfold EncodedTuple.get
  rw [h]

theorem wfList_mem : ∀ {t : List DataValue}, wfList t = true →
    ∀ {v}, v ∈ t → wfValue v = true := by
  intro t
  induction t with
  | nil => intro _ v hv; simp at hv
  | cons a as ih =>
    intro h v hv
    simp only [wfList, Bool.and_eq_true] at h
    rcases List.mem_cons.mp hv with h1 | h2
    · rw [h1]; exact h.1
    · exact ih h.2 h2

theorem serializeList_take_drop (t : List DataValue) (i : Nat) :
    serializeList t = serializeList (t.take i) ++ serializeList (t.drop i) := by
  rw [← serializeList_append, List.take_append_drop]

theorem serializeList_drop_cons {t : List DataValue} {i : Nat}
    (h : i < t.length) :
    serializeList (t.drop i) =
      serializeValue (t.getD i .Null) ++ serializeList (t.drop (i + 1)) := by
  rw [List.drop_eq_getElem_cons h, List.getD_eq_getElem _ _ h]
  simp [serializeList]

theorem length_flatten_beBytes_blocks (m : Nat) (g : Nat → Nat) :
    (((List.range m).map (fun j => beBytes 4 (g j))).flatten).length =
      4 * m := by
  induction m with
  | zero => simp
  | succ k ih =>
    rw [List.range_succ, List.map_append, List.flatten_append]
    simp only [List.length_append, ih, List.map_cons, List.map_nil,
      List.flatten_cons, List.flatten_nil, List.append_nil, length_beBytes]
    omega

theorem length_offsetTable (t : List DataValue) :
    (offsetTable t).length = 4 * (t.length - 1) := by
  unfold offsetTable
  exact length_flatten_beBytes_blocks _ _

theorem length_encode_as_key (t : List DataValue) (pfx : Nat)
    (h : 1 ≤ t.length) :
    (encode_as_key t pfx).length =
      4 * (t.length + 1) + (serializeList t).length := by
  rw [encode_as_key_layout t pfx h]
  simp only [List.length_append, length_beBytes, length_offsetTable]
  omega

theorem blocks_extract : ∀ (L : List (List Nat)) (suffix : List Nat)
    (j : Nat), (∀ b ∈ L, b.length = 4) → j < L.length →
    ((L.flatten ++ suffix).drop (4 * j)).take 4 = L.getD j [] := by
  intro L
  induction L with
  | nil => intro suffix j _ hj; simp at hj
  | cons b L ih =>
    intro suffix j hb hj
    have hb4 : b.length = 4 := hb b (by simp)
    cases j with
    | zero =>
      simp only [Nat.mul_zero, List.drop_zero, List.flatten_cons,
        List.getD_cons_zero, List.append_assoc]
      rw [List.take_append_of_le_length (by omega),
        List.take_of_length_le (by omega)]
    | succ j =>
      rw [List.flatten_cons, List.append_assoc,
        show 4 * (j + 1) = b.length + 4 * j from by omega, List.drop_append,
        List.getD_cons_succ]
      exact ih suffix j (fun x hx => hb x (by simp [hx])) (by simpa using hj)

theorem offsetTable_entry (t : List DataValue) (j : Nat) (suffix : List Nat)
    (hj : j < t.length - 1) :
    ((offsetTable t ++ suffix).drop (4 * j)).take 4 =
      beBytes 4 (tupleOffset t (j + 1)) := by
  unfold offsetTable
  have hjlen : j < ((List.range (t.length - 1)).map
      (fun i => beBytes 4 (tupleOffset t (i + 1)))).length := by
    simpa using hj
  rw [blocks_extract _ suffix j
    (by
      intro b hbm
      obtain ⟨i, -, rfl⟩ := List.mem_map.mp hbm
      exact length_beBytes _ _) hjlen]
  rw [List.getD_eq_getElem _ _ hjlen]
  simp

theorem take_len_append {α : Type} (l₁ l₂ : List α) (n : Nat)
    (h : l₁.length = n) : (l₁ ++ l₂).take n = l₁ := by
  subst h
  exact List.take_left l₁ l₂

theorem drop_len_append {α : Type} (l₁ l₂ : List α) (n : Nat)
    (h : l₁.length = n) : (l₁ ++ l₂).drop n = l₂ := by
  subst h
  simp

theorem prefixVal_encode (t : List DataValue) (pfx : Nat)
    (hn : 1 ≤ t.length) (hp : pfx < 2 ^ 32) :
    EncodedTuple.prefixVal (encode_as_key t pfx) = .ok pfx := by
  have hlenE := length_encode_as_key t pfx hn
  unfold EncodedTuple.prefixVal
  rw [if_neg (by omega)]
  rw [encode_as_key_layout t pfx hn, List.append_assoc, List.append_assoc]
  rw [take_len_append _ _ 4 (length_beBytes 4 pfx)]
  rw [decBE_beBytes_of_lt (by norm_num at hp ⊢; omega)]

theorem arity_encode (t : List DataValue) (pfx : Nat)
    (hn : 1 ≤ t.length) (hb : t.length < 2 ^ 32) :
    EncodedTuple.arity (encode_as_key t pfx) = .ok t.length := by
  have hlenE := length_encode_as_key t pfx hn
  unfold EncodedTuple.arity
  rw [if_neg (by omega)]
  rw [encode_as_key_layout t pfx hn, List.append_assoc, List.append_assoc]
  rw [drop_len_append _ _ 4 (length_beBytes 4 pfx)]
  rw [take_len_append _ _ 4 (length_beBytes 4 t.length)]
  rw [decBE_beBytes_of_lt (by norm_num at hb ⊢; omega)]

theorem encode_drop_offset (t : List DataValue) (pfx idx : Nat)
    (hn : 1 ≤ t.length) :
    (encode_as_key t pfx).drop (tupleOffset t idx) =
      serializeList (t.drop idx) := by
  rw [encode_as_key_layout t pfx hn]
  have hhdr : ((beBytes 4 pfx ++ beBytes 4 t.length) ++ offsetTable t).length
      = 4 * (t.length + 1) := by
    simp only [List.length_append, length_beBytes, length_offsetTable]
    omega
  unfold tupleOffset
  rw [show 4 * (t.length + 1) + (serializeList (t.take idx)).length =
      ((beBytes 4 pfx ++ beBytes 4 t.length) ++ offsetTable t).length +
        (serializeList (t.take idx)).length from by rw [hhdr]]
  rw [List.drop_append]
  conv_lhs => rw [serializeList_take_drop t idx]
  rw [drop_len_append _ _ _ rfl]

theorem decode_at_offset (t : List DataValue) (pfx idx : Nat)
    (hn : 1 ≤ t.length) (hwf : wfList t = true) (hidx : idx < t.length) :
    decodeValueF ((encode_as_key t pfx).length - tupleOffset t idx)
      ((encode_as_key t pfx).drop (tupleOffset t idx)) =
      some (t.getD idx .Null, serializeList (t.drop (idx + 1))) := by
  rw [encode_drop_offset t pfx idx hn, serializeList_drop_cons hidx]
  apply (decode_roundtrip _).1
  · apply wfList_mem hwf
    rw [List.getD_eq_getElem _ _ hidx]
    exact List.getElem_mem _
  · have hlenE := length_encode_as_key t pfx hn
    have hsplit : (serializeList t).length =
        (serializeList (t.take idx)).length +
          (serializeList (t.drop idx)).length := by
      conv_lhs => rw [serializeList_take_drop t idx]
      simp
    have hdclen : (serializeList (t.drop idx)).length =
        (serializeValue (t.getD idx .Null)).length +
          (serializeList (t.drop (idx + 1))).length := by
      rw [serializeList_drop_cons hidx]
      simp
    have h1 := numNodes_le_length (t.getD idx .Null)
    unfold tupleOffset
    omega

theorem getPos_encode (t : List DataValue) (pfx idx : Nat)
    (hn : 1 ≤ t.length) (hidx : idx < t.length)
    (hbound : 4 * (t.length + 1) + (serializeList t).length < 2 ^ 32) :
    EncodedTuple.getPos (encode_as_key t pfx) idx =
      .ok (tupleOffset t idx) := by
  have hlenE := length_encode_as_key t pfx hn
  have hsplit : (serializeList t).length =
      (serializeList (t.take idx)).length +
        (serializeList (t.drop idx)).length := by
    conv_lhs => rw [serializeList_take_drop t idx]
    simp
  have hofflt : tupleOffset t idx < 2 ^ 32 := by
    unfold tupleOffset
    omega
  rcases Nat.eq_zero_or_pos idx with hidx0 | hidxpos
  · subst hidx0
    have h0 : tupleOffset t 0 = 4 * (t.length + 1) := by
      simp [tupleOffset, serializeList]
    unfold EncodedTuple.getPos
    rw [if_pos rfl, arity_encode t pfx hn (by omega), h0]
    rfl
  · unfold EncodedTuple.getPos
    rw [if_neg (by omega), if_neg (by rw [hlenE]; push_neg; omega)]
    have hslice : ((encode_as_key t pfx).drop ((idx + 1) * 4)).take 4 =
        beBytes 4 (tupleOffset t idx) := by
      rw [encode_as_key_layout t pfx hn, List.append_assoc]
      rw [show (idx + 1) * 4 =
          (beBytes 4 pfx ++ beBytes 4 t.length).length + 4 * (idx - 1) from by
        simp only [List.length_append, length_beBytes]
        omega]
      rw [List.drop_append, offsetTable_entry t (idx - 1) (serializeList t)
        (by omega)]
      rw [show idx - 1 + 1 = idx from by omega]
    rw [hslice, decBE_beBytes_of_lt (by norm_num at hofflt ⊢; omega)]

theorem get_encode (t : List DataValue) (pfx idx : Nat) (hn : 1 ≤ t.length)
    (hwf : wfList t = true) (hidx : idx < t.length)
    (hbound : 4 * (t.length + 1) + (serializeList t).length < 2 ^ 32) :
    EncodedTuple.get (encode_as_key t pfx) idx = .ok (t.getD idx .Null) := by
  rw [get_eq_of_pos (getPos_encode t pfx idx hn hidx hbound)]
  have hlenE := length_encode_as_key t pfx hn
  have hsplit : (serializeList t).length =
      (serializeList (t.take idx)).length +
        (serializeList (t.drop idx)).length := by
    conv_lhs => rw [serializeList_take_drop t idx]
    simp
  have hdclen : (serializeList (t.drop idx)).length =
      (serializeValue (t.getD idx .Null)).length +
        (serializeList (t.drop (idx + 1))).length := by
    rw [serializeList_drop_cons hidx]
    simp
  have hvpos := serializeValue_length_pos (t.getD idx .Null)
  unfold EncodedTuple.getAt
  rw [if_neg (by unfold tupleOffset; omega)]
  rw [decode_at_offset t pfx idx hn hwf hidx]

theorem runIter_succ_some {it it2 : EncIter} {x : Except TupleErr DataValue}
    (h : iterNext it = (some x, it2)) (f : Nat) :
    runIter it (f + 1) = x :: runIter it2 f := by
  conv_lhs => unfold runIter
  rw [h]

theorem runIter_succ_none {it it2 : EncIter}
    (h : iterNext it = (none, it2)) (f : Nat) :
    runIter it (f + 1) = [] := by
  conv_lhs => unfold runIter
  rw [h]

theorem runIter_sized (bs : List Nat) (a : Nat) (ha : 1 ≤ a) :
    ∀ (fuel pos : Nat), pos ≤ a → a - pos < fuel →
      runIter ⟨bs, a, pos⟩ fuel =
        (List.range (a - pos)).map (fun j => EncodedTuple.get bs (pos + j)) := by
  intro fuel
  induction fuel with
  | zero => intro pos _ hf; omega
  | succ f ih =>
    intro pos hpos hf
    have ha0 : ¬ a = 0 := by omega
    by_cases hp : pos = a
    · have h1 : iterNext ⟨bs, a, pos⟩ = (none, ⟨bs, a, pos⟩) := by
        simp [iterNext, iterNextCont, hp, ha0]
      rw [runIter_succ_none h1, hp]
      simp
    · have h1 : iterNext ⟨bs, a, pos⟩ =
          (some (EncodedTuple.get bs pos), ⟨bs, a, pos + 1⟩) := by
        simp [iterNext, iterNextCont, hp, ha0]
      rw [runIter_succ_some h1, ih (pos + 1) (by omega) (by omega)]
      have hmap : List.map ((fun j => EncodedTuple.get bs (pos + j)) ∘ Nat.succ)
          (List.range (a - (pos + 1))) =
          List.map (fun j => EncodedTuple.get bs (pos + 1 + j))
            (List.range (a - (pos + 1))) := by
        apply List.map_congr_left
        intro j _
        simp only [Function.comp_apply, Nat.succ_eq_add_one]
        rw [show pos + (j + 1) = pos + 1 + j from by omega]
      rw [show a - pos = (a - (pos + 1)) + 1 from by omega,
        List.range_succ_eq_map, List.map_cons, List.map_map, hmap]
      simp

theorem runIter_encoded (bs : List Nat) (a fuel : Nat)
    (ha : EncodedTuple.arity bs = .ok a) (hf : a + 1 ≤ fuel) :
    runIter (mkIter bs) fuel = (List.range a).map (EncodedTuple.get bs) := by
  obtain ⟨f, rfl⟩ : ∃ f, fuel = f + 1 := ⟨fuel - 1, by omega⟩
  rw [mkIter]
  by_cases ha0 : a = 0
  · subst ha0
    have h1 : iterNext ⟨bs, 0, 0⟩ = (none, ⟨bs, 0, 0⟩) := by
      simp [iterNext, ha, iterNextCont]
    rw [runIter_succ_none h1]
    simp
  · have h1 : iterNext ⟨bs, 0, 0⟩ =
        (some (EncodedTuple.get bs 0), ⟨bs, a, 1⟩) := by
      simp [iterNext, ha, iterNextCont, Ne.symm ha0]
    rw [runIter_succ_some h1]
    rw [runIter_sized bs a (by omega) f 1 (by omega) (by omega)]
    have hmap : List.map (EncodedTuple.get bs ∘ Nat.succ)
        (List.range (a - 1)) =
        List.map (fun j => EncodedTuple.get bs (1 + j))
          (List.range (a - 1)) := by
      apply List.map_congr_left
      intro j _
      simp only [Function.comp_apply, Nat.succ_eq_add_one]
      rw [show j + 1 = 1 + j from by omega]
    rw [show a = (a - 1) + 1 from by omega, List.range_succ_eq_map,
      List.map_cons, List.map_map]
    simp only [Nat.add_sub_cancel]
    rw [hmap]

theorem sequenceOpt_map_some {α β : Type} (l : List α) (f : α → Option β)
    (g : α → β) (h : ∀ x ∈ l, f x = some (g x)) :
    sequenceOpt (l.map f) = some (l.map g) := by
  induction l with
  | nil => simp [sequenceOpt]
  | cons a as ih =>
    have ha := h a (by simp)
    have has := ih (fun x hx => h x (by simp [hx]))
    simp only [List.map_cons, sequenceOpt, ha, has]

theorem map_range_getD {α : Type} (t : List α) (d : α) :
    (List.range t.length).map (fun i => t.getD i d) = t := by
  induction t with
  | nil => simp
  | cons a as ih =>
    rw [List.length_cons, List.range_succ_eq_map, List.map_cons, List.map_map]
    have hcomp : ((fun i => (a :: as).getD i d) ∘ Nat.succ) =
        fun i => as.getD i d := by
      funext i
      simp [List.getD_cons_succ]
    rw [hcomp, ih]
    simp

theorem decodeTuple_encode (t : List DataValue) (pfx : Nat)
    (hn : 1 ≤ t.length) (hwf : wfList t = true) (hp : pfx < 2 ^ 32)
    (hbound : 4 * (t.length + 1) + (serializeList t).length < 2 ^ 32) :
    decodeTuple (encode_as_key t pfx) = some (pfx, t) := by
  have h1 := prefixVal_encode t pfx hn hp
  have h2 := arity_encode t pfx hn (by omega)
  have h3 : sequenceOpt ((List.range t.length).map
      (fun i => (EncodedTuple.get (encode_as_key t pfx) i).toOption)) =
      some t := by
    rw [sequenceOpt_map_some (List.range t.length) _
      (fun i => t.getD i .Null)
      (fun i hi => by
        rw [get_encode t pfx i hn hwf (List.mem_range.mp hi) hbound]
        rfl)]
    rw [map_range_getD]
  simp only [decodeTuple, h1, h2, h3]

/-- C1, counterexample: byte-lexicographic comparison of two
`encode_as_key` outputs with the same partition prefix does not have the
same sign as the value-wise lexicographic comparison of the tuples.  For
`A = ["ab", null]` and `B = ["b", null]` the offset-table entry of the
second value is larger for `A` (its first value serializes longer), so
the encodings compare `gt`, while value-wise `A < B`. -/
theorem c1_counterexample :
    byteCompare (encode_as_key [DataValue.Str [97, 98], DataValue.Null] 0)
        (encode_as_key [DataValue.Str [98], DataValue.Null] 0) =
      Ordering.gt ∧
    valueListCompare [DataValue.Str [97, 98], DataValue.Null]
        [DataValue.Str [98], DataValue.Null] = Ordering.lt ∧
    byteCompare (encode_as_key [DataValue.Str [97, 98], DataValue.Null] 0)
        (encode_as_key [DataValue.Str [98], DataValue.Null] 0) ≠
      valueListCompare [DataValue.Str [97, 98], DataValue.Null]
        [DataValue.Str [98], DataValue.Null] := by
  refine ⟨rfl, rfl, ?_⟩
  decide

/-- C1, amended: the order that is preserved is the one computed by the
storage engine's custom comparator, which decodes both keys and compares
the partition prefix first and then the tuples value-by-value: for any
two well-formed tuples encoded with the same prefix, the comparator's
answer equals the value-wise lexicographic comparison. -/
theorem c1_comparator_order (A B : List DataValue) (pfx : Nat)
    (hA : 1 ≤ A.length) (hB : 1 ≤ B.length)
    (hwA : wfList A = true) (hwB : wfList B = true) (hp : pfx < 2 ^ 32)
    (hbA : 4 * (A.length + 1) + (serializeList A).length < 2 ^ 32)
    (hbB : 4 * (B.length + 1) + (serializeList B).length < 2 ^ 32) :
    compareTupleKeys (encode_as_key A pfx) (encode_as_key B pfx) =
      valueListCompare A B := by
  unfold compareTupleKeys
  rw [decodeTuple_encode A pfx hA hwA hp hbA,
    decodeTuple_encode B pfx hB hwB hp hbB]
  simp

/-- Witness for C1 at the tuples `[1]` and `[2]` with prefix 5. -/
theorem c1_comparator_order_witness :
    compareTupleKeys (encode_as_key [DataValue.Int 1] 5)
        (encode_as_key [DataValue.Int 2] 5) =
      valueListCompare [DataValue.Int 1] [DataValue.Int 2] ∧
    valueListCompare [DataValue.Int 1] [DataValue.Int 2] = Ordering.lt := by
  refine ⟨c1_comparator_order [DataValue.Int 1] [DataValue.Int 2] 5
    (by decide) (by decide) (by decide) (by decide) (by decide)
    (by decide) (by decide), by decide⟩

/-- C2, counterexample: the empty tuple breaks the round-trip.  The
`resize(4*(0+1))` in `encode_as_key` truncates the buffer to the 4-byte
prefix, dropping the arity field, so `arity()` on the encoding of the
empty sequence fails instead of returning 0. -/
theorem c2_counterexample :
    encode_as_key ([] : List DataValue) 123 = [0, 0, 0, 123] ∧
    EncodedTuple.arity (encode_as_key ([] : List DataValue) 123) =
      .error (.badData "bad data length" [0, 0, 0, 123]) ∧
    EncodedTuple.arity (encode_as_key ([] : List DataValue) 123) ≠
      .ok ([] : List DataValue).length := by
  refine ⟨rfl, rfl, ?_⟩
  decide

/-- C2, amended: for every nonempty well-formed sequence of values (with
the prefix a `u32` and the encoding shorter than `2^32` bytes, as in the
Rust types), `prefix()`, `arity()`, every `get(idx)` with `idx < arity`
and collecting the iterator all recover the data used to build the
encoding. -/
theorem c2_roundtrip (t : List DataValue) (pfx : Nat) (hn : 1 ≤ t.length)
    (hwf : wfList t = true) (hp : pfx < 2 ^ 32)
    (hbound : 4 * (t.length + 1) + (serializeList t).length < 2 ^ 32) :
    EncodedTuple.prefixVal (encode_as_key t pfx) = .ok pfx ∧
    EncodedTuple.arity (encode_as_key t pfx) = .ok t.length ∧
    (∀ idx, idx < t.length →
      EncodedTuple.get (encode_as_key t pfx) idx = .ok (t.getD idx .Null)) ∧
    runIter (mkIter (encode_as_key t pfx)) (t.length + 1) =
      t.map Except.ok := by
  refine ⟨prefixVal_encode t pfx hn hp, arity_encode t pfx hn (by omega),
    fun idx hidx => get_encode t pfx idx hn hwf hidx hbound, ?_⟩
  rw [runIter_encoded _ t.length (t.length + 1)
    (arity_encode t pfx hn (by omega)) (le_refl _)]
  have hmap : (List.range t.length).map
      (EncodedTuple.get (encode_as_key t pfx)) =
      (List.range t.length).map
        (fun i => Except.ok (t.getD i DataValue.Null)) := by
    apply List.map_congr_left
    intro i hi
    rw [get_encode t pfx i hn hwf (List.mem_range.mp hi) hbound]
  rw [hmap]
  rw [show (fun i => Except.ok (t.getD i DataValue.Null)) =
      ((Except.ok : DataValue → Except TupleErr DataValue) ∘
        (fun i => t.getD i DataValue.Null)) from rfl]
  rw [← List.map_map, map_range_getD]

/-- Witness for C2 at the tuple `[true, "a"]` with prefix 7. -/
theorem c2_roundtrip_witness :
    EncodedTuple.get
        (encode_as_key [DataValue.Bool true, DataValue.Str [97]] 7) 0 =
      .ok (DataValue.Bool true) ∧
    runIter
        (mkIter (encode_as_key [DataValue.Bool true, DataValue.Str [97]] 7))
        3 =
      [Except.ok (DataValue.Bool true), Except.ok (DataValue.Str [97])] := by
  have h := c2_roundtrip [DataValue.Bool true, DataValue.Str [97]] 7
    (by decide) (by decide) (by decide) (by decide)
  exact ⟨h.2.2.1 0 (by decide), h.2.2.2⟩

/-- C3, counterexample: the encoded form does not contain an offset table
of `arity` entries with the first value right after it.  For the 1-tuple
`[null]` with prefix 0 that shape would require `4 + 4 + 4*1 + 1 = 13`
bytes, while `encode_as_key` produces 9: the table only has `arity - 1`
entries. -/
theorem c3_counterexample :
    ¬ ∃ table : List Nat, table.length = 4 * 1 ∧
      encode_as_key [DataValue.Null] 0 =
        beBytes 4 0 ++ beBytes 4 1 ++ table ++
          serializeList [DataValue.Null] := by
  rintro ⟨table, hlen, heq⟩
  have h9 : (encode_as_key [DataValue.Null] 0).length = 9 := by decide
  rw [heq] at h9
  simp only [List.length_append, length_beBytes,
    show (serializeList [DataValue.Null]).length = 1 from rfl] at h9
  omega

/-- C3, amended: for every nonempty tuple, `encode_as_key` emits the
4-byte big-endian prefix, the 4-byte big-endian arity, an offset table of
`arity - 1` 4-byte big-endian entries (entry `j` holding the byte offset
of value `j+2`, that is `4*(arity+1)` plus the serialized lengths of the
values before it), and then the serialized values, the 1st value's bytes
beginning immediately after the table at byte `4*(arity+1)`.  (The empty
tuple is excluded: its buffer is truncated to the prefix alone, see the
C2 counterexample.) -/
theorem c3_layout (t : List DataValue) (pfx : Nat) (hn : 1 ≤ t.length) :
    encode_as_key t pfx =
      beBytes 4 pfx ++ beBytes 4 t.length ++ offsetTable t ++
        serializeList t ∧
    (offsetTable t).length = 4 * (t.length - 1) ∧
    ∀ j, j < t.length - 1 →
      ((offsetTable t).drop (4 * j)).take 4 =
        beBytes 4 (tupleOffset t (j + 1)) := by
  refine ⟨encode_as_key_layout t pfx hn, length_offsetTable t,
    fun j hj => ?_⟩
  have h := offsetTable_entry t j [] hj
  simpa using h

/-- Witness for C3 at the tuple `[null, bottom]` with prefix 9. -/
theorem c3_layout_witness :
    encode_as_key [DataValue.Null, DataValue.Bot] 9 =
      beBytes 4 9 ++ beBytes 4 2 ++
        offsetTable [DataValue.Null, DataValue.Bot] ++
        serializeList [DataValue.Null, DataValue.Bot] ∧
    (offsetTable [DataValue.Null, DataValue.Bot]).length = 4 := by
  have h := c3_layout [DataValue.Null, DataValue.Bot] 9 (by decide)
  exact ⟨h.1, h.2.1⟩

/-- C4: `prefix()` fails with the data-corruption error exactly when the
slice is shorter than 4 bytes, `arity()` exactly when shorter than 8;
`get(idx)` fails with it when the offset table is truncated or when the
resolved offset does not fall inside the slice (both for a table entry
and for the implicit index-0 offset); and on the encoding of the tuple
`[1, 2.0, "my_name_is"]` with prefix 123 indices 0..2 decode to the
original values while index 3 fails with the data-corruption error. -/
theorem c4_error_conditions :
    (∀ bs : List Nat,
      EncodedTuple.prefixVal bs = .error (.badData "bad data length" bs) ↔
        bs.length < 4) ∧
    (∀ bs : List Nat,
      EncodedTuple.arity bs = .error (.badData "bad data length" bs) ↔
        bs.length < 8) ∧
    (∀ (bs : List Nat) (idx : Nat), 1 ≤ idx →
      bs.length < (idx + 1) * 4 + 4 →
      EncodedTuple.get bs idx = .error (.badData "bad data length" bs)) ∧
    (∀ (bs : List Nat) (idx : Nat), 1 ≤ idx →
      (idx + 1) * 4 + 4 ≤ bs.length →
      bs.length ≤ decBE ((bs.drop ((idx + 1) * 4)).take 4) →
      EncodedTuple.get bs idx = .error (.badData "bad data length" bs)) ∧
    (∀ (bs : List Nat) (a : Nat), EncodedTuple.arity bs = .ok a →
      bs.length ≤ 4 * (a + 1) →
      EncodedTuple.get bs 0 = .error (.badData "bad data length" bs)) ∧
    EncodedTuple.get (encode_as_key scenarioTuple 123) 0 =
      .ok (DataValue.Int 1) ∧
    EncodedTuple.get (encode_as_key scenarioTuple 123) 1 =
      .ok (DataValue.Float (2 ^ 62)) ∧
    EncodedTuple.get (encode_as_key scenarioTuple 123) 2 =
      .ok (DataValue.Str [109, 121, 95, 110, 97, 109, 101, 95, 105, 115]) ∧
    EncodedTuple.get (encode_as_key scenarioTuple 123) 3 =
      .error (.badData "bad data length" (encode_as_key scenarioTuple 123)) := by
  refine ⟨?_, ?_, ?_, ?_, ?_, rfl, rfl, rfl, rfl⟩
  · intro bs
    unfold EncodedTuple.prefixVal
    by_cases h : bs.length < 4 <;> simp [h]
  · intro bs
    unfold EncodedTuple.arity
    by_cases h : bs.length < 8 <;> simp [h]
  · intro bs idx h1 h2
    apply get_eq_of_err
    unfold EncodedTuple.getPos
    rw [if_neg (by omega), if_pos h2]
  · intro bs idx h1 h2 h3
    have hpos : EncodedTuple.getPos bs idx =
        .ok (decBE ((bs.drop ((idx + 1) * 4)).take 4)) := by
      unfold EncodedTuple.getPos
      rw [if_neg (by omega), if_neg (by omega)]
    rw [get_eq_of_pos hpos]
    unfold EncodedTuple.getAt
    rw [if_pos h3]
  · intro bs a ha h2
    have hpos : EncodedTuple.getPos bs 0 = .ok (4 * (a + 1)) := by
      unfold EncodedTuple.getPos
      rw [if_pos rfl, ha]
      rfl
    rw [get_eq_of_pos hpos]
    unfold EncodedTuple.getAt
    rw [if_pos h2]

/-- Witness for C4: a 3-byte slice fails `prefix()`, and on a 9-byte
slice a truncated offset table makes `get(1)` fail. -/
theorem c4_error_conditions_witness :
    EncodedTuple.prefixVal [0, 1, 2] =
      .error (.badData "bad data length" [0, 1, 2]) ∧
    EncodedTuple.get [0, 0, 0, 0, 0, 0, 0, 2, 0] 1 =
      .error (.badData "bad data length" [0, 0, 0, 0, 0, 0, 0, 2, 0]) := by
  exact ⟨(c4_error_conditions.1 [0, 1, 2]).mpr (by decide),
    c4_error_conditions.2.2.1 [0, 0, 0, 0, 0, 0, 0, 2, 0] 1 (by decide)
      (by decide)⟩

/-- C5, counterexample: iteration is not finite on every byte slice.  On
the 4-byte slice `[0,0,0,0]` every call to `next` fails to read the arity
and returns a failing item with the state unchanged, so the iterator
yields failing items forever (it repeats, and no call ever returns
`none`). -/
theorem c5_counterexample :
    (iterNext (mkIter [0, 0, 0, 0]) =
      (some (.error (.badData "bad data length" [0, 0, 0, 0])),
        mkIter [0, 0, 0, 0])) ∧
    ¬ ∃ k, iterNth (mkIter [0, 0, 0, 0]) k = none := by
  have hstep : iterNext (mkIter [0, 0, 0, 0]) =
      (some (.error (.badData "bad data length" [0, 0, 0, 0])),
        mkIter [0, 0, 0, 0]) := rfl
  refine ⟨hstep, ?_⟩
  have hall : ∀ k, iterNth (mkIter [0, 0, 0, 0]) k =
      some (.error (.badData "bad data length" [0, 0, 0, 0])) := by
    intro k
    induction k with
    | zero => rfl
    | succ n ih =>
      show iterNth (iterNext (mkIter [0, 0, 0, 0])).2 n = _
      rw [hstep]
      exact ih
  rintro ⟨k, hk⟩
  rw [hall k] at hk
  exact Option.noConfusion hk

/-- C5, amended: on every slice whose arity field is readable (length at
least 8, equivalently `arity()` succeeds), iteration is finite and
per-item: it yields exactly `arity` items, the `i`-th being the result of
`get(i)` — failing items appear in place instead of aborting the
sequence — and a fresh iterator deterministically restarts from the first
value.  On shorter slices every call repeats the arity failure, see the
counterexample. -/
theorem c5_iter_finite_per_item (bs : List Nat) (a fuel : Nat)
    (ha : EncodedTuple.arity bs = .ok a) (hf : a + 1 ≤ fuel) :
    runIter (mkIter bs) fuel = (List.range a).map (EncodedTuple.get bs) ∧
    (runIter (mkIter bs) fuel).length = a := by
  have h := runIter_encoded bs a fuel ha hf
  refine ⟨h, ?_⟩
  rw [h]
  simp

/-- Witness for C5 on the encoding of `[null]` with prefix 3. -/
theorem c5_iter_finite_per_item_witness :
    runIter (mkIter (encode_as_key [DataValue.Null] 3)) 2 =
      (List.range 1).map
        (EncodedTuple.get (encode_as_key [DataValue.Null] 3)) ∧
    (runIter (mkIter (encode_as_key [DataValue.Null] 3)) 2).length = 1 :=
  c5_iter_finite_per_item (encode_as_key [DataValue.Null] 3) 1 2
    (by decide) (by decide)

theorem lookup_filter_self (l : List (Nat × Nat)) (id : Nat) :
    List.lookup id (l.filter (fun p => p.1 != id)) = none := by
  induction l with
  | nil => simp
  | cons p l ih =>
    by_cases h : p.1 = id
    · simp [List.filter_cons, h, ih]
    · simp [List.filter_cons, h, List.lookup, ih,
        show (id == p.1) = false from
          beq_eq_false_iff_ne.mpr (fun hc => h hc.symm)]

/-- C6: when a program writes to a stored relation, `Db::run_query` fails
with the relation-conflict error under `CREATE` if the name exists; under
any mode other than `CREATE` and `RE-DERIVE` it fails with the
relation-not-found error if the name is absent and with the
schema-incompatibility error if the existing handle's schema disagrees
with the declared head; under `RE-DERIVE` the whole check block — in
particular the compatibility error path — is skipped. -/
theorem c6_output_mode_checks :
    (∀ (cat : Catalog) (st : QueryRegistryState) (id st0 : Nat)
      (meta : RelationMeta) (a : Option QueryAssertion)
      (ev : Except QueryError (List (List DataValue))),
      relation_exists cat meta.name = true →
      (Db.run_query cat st id st0 ⟨some (meta, RelationOp.Create), a, ev⟩).1 =
        .error (.storedRelationConflict meta.name)) ∧
    (∀ (cat : Catalog) (st : QueryRegistryState) (id st0 : Nat)
      (meta : RelationMeta) (op : RelationOp) (a : Option QueryAssertion)
      (ev : Except QueryError (List (List DataValue))),
      op ≠ RelationOp.Create → op ≠ RelationOp.ReDerive →
      List.lookup meta.name cat = none →
      (Db.run_query cat st id st0 ⟨some (meta, op), a, ev⟩).1 =
        .error (.storedRelationNotFound meta.name)) ∧
    (∀ (cat : Catalog) (st : QueryRegistryState) (id st0 : Nat)
      (meta : RelationMeta) (op : RelationOp) (a : Option QueryAssertion)
      (ev : Except QueryError (List (List DataValue)))
      (h : RelationHandle),
      op ≠ RelationOp.Create → op ≠ RelationOp.ReDerive →
      List.lookup meta.name cat = some h → h.schema ≠ meta.schema →
      (Db.run_query cat st id st0 ⟨some (meta, op), a, ev⟩).1 =
        .error (.schemaIncompatible meta.name)) ∧
    (∀ (cat : Catalog) (meta : RelationMeta),
      checkStoreRelation cat meta RelationOp.ReDerive = .ok ()) := by
  refine ⟨?_, ?_, ?_, ?_⟩
  · intro cat st id st0 meta a ev hex
    have hch : checkStoreRelation cat meta RelationOp.Create =
        .error (.storedRelationConflict meta.name) := by
      unfold checkStoreRelation
      rw [if_pos rfl]
      simp [hex]
    simp [Db.run_query, hch]
  · intro cat st id st0 meta op a ev hop1 hop2 hlook
    have hch : checkStoreRelation cat meta op =
        .error (.storedRelationNotFound meta.name) := by
      unfold checkStoreRelation
      rw [if_neg hop1, if_pos hop2]
      unfold get_relation
      rw [hlook]
    simp [Db.run_query, hch]
  · intro cat st id st0 meta op a ev h hop1 hop2 hlook hschema
    have hch : checkStoreRelation cat meta op =
        .error (.schemaIncompatible meta.name) := by
      unfold checkStoreRelation
      rw [if_neg hop1, if_pos hop2]
      unfold get_relation
      rw [hlook]
      simp [relation_exists, hlook, ensure_compatible, hschema]
    simp [Db.run_query, hch]
  · intro cat meta
    unfold checkStoreRelation
    rw [if_neg (by decide), if_neg (by simp)]

/-- Witness for C6: a second `CREATE` of relation `R` conflicts, and a
`PUT` into an absent relation reports not-found. -/
theorem c6_output_mode_checks_witness :
    (Db.run_query [("R", ⟨"R", [("a", "any")]⟩)] ⟨[], fun _ => false⟩ 0 0
        ⟨some (⟨"R", [("a", "any")]⟩, RelationOp.Create), none, .ok []⟩).1 =
      .error (.storedRelationConflict "R") ∧
    (Db.run_query [] ⟨[], fun _ => false⟩ 0 0
        ⟨some (⟨"R", [("a", "any")]⟩, RelationOp.Put), none, .ok []⟩).1 =
      .error (.storedRelationNotFound "R") := by
  exact ⟨c6_output_mode_checks.1 [("R", ⟨"R", [("a", "any")]⟩)]
      ⟨[], fun _ => false⟩ 0 0 ⟨"R", [("a", "any")]⟩ none (.ok []) rfl,
    c6_output_mode_checks.2.1 [] ⟨[], fun _ => false⟩ 0 0
      ⟨"R", [("a", "any")]⟩ RelationOp.Put none (.ok [])
      (by decide) (by decide) rfl⟩

/-- C7: `Db::build` writes the manifest record exactly once when no
manifest exists; on every subsequent open it compares the stored version
for equality with the expected version 1; a mismatch is fatal before the
store is opened or any transaction is attempted, and neither a migration
(a manifest write) nor a partial startup occurs. -/
theorem c7_manifest (m : Option Nat) :
    (m = none →
      (Db.build m).1.count
        (BuildEffect.writeManifest CURRENT_STORAGE_VERSION) = 1 ∧
      (Db.build m).2 = BuildOutcome.opened true) ∧
    (m = some CURRENT_STORAGE_VERSION →
      (∀ v, BuildEffect.writeManifest v ∉ (Db.build m).1) ∧
      (Db.build m).2 = BuildOutcome.opened false) ∧
    (∀ v, v ≠ CURRENT_STORAGE_VERSION → m = some v →
      (Db.build m).2 = BuildOutcome.versionMismatch v CURRENT_STORAGE_VERSION ∧
      BuildEffect.beginTransact ∉ (Db.build m).1 ∧
      BuildEffect.openStore ∉ (Db.build m).1 ∧
      (∀ w, BuildEffect.writeManifest w ∉ (Db.build m).1)) := by
  refine ⟨?_, ?_, ?_⟩
  · rintro rfl
    constructor
    · decide
    · rfl
  · rintro rfl
    refine ⟨fun v => ?_, by simp [Db.build, CURRENT_STORAGE_VERSION]⟩
    simp [Db.build, CURRENT_STORAGE_VERSION]
  · rintro v hv rfl
    refine ⟨?_, ?_, ?_, fun w => ?_⟩ <;>
      simp [Db.build, hv]

/-- Witness for C7: opening with a manifest recording version 2 fails
with the mismatch outcome and never begins a transaction. -/
theorem c7_manifest_witness :
    (Db.build (some 2)).2 =
      BuildOutcome.versionMismatch 2 CURRENT_STORAGE_VERSION ∧
    BuildEffect.beginTransact ∉ (Db.build (some 2)).1 := by
  have h := (c7_manifest (some 2)).2.2 2 (by decide) rfl
  exact ⟨h.1, h.2.1⟩

/-- C8: with the output-relation checks out of the way, a query carrying
`AssertSome` fails — with the assertion-failure error citing the
asserting statement's span — exactly when the evaluated result has zero
rows and succeeds otherwise, while `AssertNone` fails with the
span-citing assertion failure exactly when the result has at least one
row. -/
theorem c8_assertions :
    (∀ (cat : Catalog) (st : QueryRegistryState) (id st0 : Nat)
      (span : SourceSpan),
      (Db.run_query cat st id st0
        ⟨none, some (QueryAssertion.AssertSome span), .ok []⟩).1 =
        .error (.assertSomeFailure span)) ∧
    (∀ (cat : Catalog) (st : QueryRegistryState) (id st0 : Nat)
      (span : SourceSpan) (r : List DataValue) (rest : List (List DataValue)),
      (Db.run_query cat st id st0
        ⟨none, some (QueryAssertion.AssertSome span), .ok (r :: rest)⟩).1 =
        .ok (r :: rest)) ∧
    (∀ (cat : Catalog) (st : QueryRegistryState) (id st0 : Nat)
      (span : SourceSpan),
      (Db.run_query cat st id st0
        ⟨none, some (QueryAssertion.AssertNone span), .ok []⟩).1 = .ok []) ∧
    (∀ (cat : Catalog) (st : QueryRegistryState) (id st0 : Nat)
      (span : SourceSpan) (r : List DataValue) (rest : List (List DataValue)),
      (Db.run_query cat st id st0
        ⟨none, some (QueryAssertion.AssertNone span), .ok (r :: rest)⟩).1 =
        .error (.assertNoneFailure r span)) := by
  refine ⟨?_, ?_, ?_, ?_⟩ <;>
    intros <;>
    simp [Db.run_query, checkAssertion]

/-- Witness for C8 at a one-row result and a zero-row result with span
⟨3, 7⟩. -/
theorem c8_assertions_witness :
    (Db.run_query [] ⟨[], fun _ => false⟩ 1 0
      ⟨none, some (QueryAssertion.AssertSome ⟨3, 7⟩), .ok []⟩).1 =
      .error (.assertSomeFailure ⟨3, 7⟩) ∧
    (Db.run_query [] ⟨[], fun _ => false⟩ 1 0
      ⟨none, some (QueryAssertion.AssertSome ⟨3, 7⟩),
        .ok [[DataValue.Int 1]]⟩).1 = .ok [[DataValue.Int 1]] :=
  ⟨c8_assertions.1 [] ⟨[], fun _ => false⟩ 1 0 ⟨3, 7⟩,
   c8_assertions.2.1 [] ⟨[], fun _ => false⟩ 1 0 ⟨3, 7⟩ [DataValue.Int 1] []⟩

/-- C9: for every execution of `Db::run_query` under a fresh id, on every
exit path — normal completion, evaluation error or cancellation, which
all flow through the scope guard — the final registry maps the id to
nothing; and whenever the query was registered at all (the preliminary
checks passed), its poison flag has been forced true by the cleanup. -/
theorem c9_registry_cleanup (cat : Catalog) (st : QueryRegistryState)
    (id startedAt : Nat) (q : InputProgramModel)
    (hfresh : List.lookup id st.registry = none) :
    List.lookup id (Db.run_query cat st id startedAt q).2.registry = none ∧
    ((match q.storeRelation with
      | some (meta, op) => checkStoreRelation cat meta op
      | none => Except.ok ()) = Except.ok () →
      (Db.run_query cat st id startedAt q).2.poisons id = true) := by
  cases hch : (match q.storeRelation with
      | some (meta, op) => checkStoreRelation cat meta op
      | none => Except.ok ()) with
  | error e =>
    constructor
    · simp [Db.run_query, hch, hfresh]
    · intro h
      exact Except.noConfusion h
  | ok u =>
    cases u
    have hreg : (Db.run_query cat st id startedAt q).2 =
        cleanupDrop id ⟨(id, startedAt) :: st.registry, st.poisons⟩ := by
      simp [Db.run_query, hch]
    have hlookup1 :
        List.lookup id ((id, startedAt) :: st.registry) = some startedAt := by
      simp [List.lookup]
    constructor
    · rw [hreg]
      unfold cleanupDrop
      rw [hlookup1]
      exact lookup_filter_self _ _
    · intro _
      rw [hreg]
      unfold cleanupDrop
      rw [hlookup1]
      simp

/-- Witness for C9: a trivial query on an empty registry under id 0. -/
theorem c9_registry_cleanup_witness :
    List.lookup 0 (Db.run_query [] ⟨[], fun _ => false⟩ 0 5
      ⟨none, none, .ok []⟩).2.registry = none ∧
    (Db.run_query [] ⟨[], fun _ => false⟩ 0 5
      ⟨none, none, .ok []⟩).2.poisons 0 = true := by
  have h := c9_registry_cleanup [] ⟨[], fun _ => false⟩ 0 5
    ⟨none, none, .ok []⟩ rfl
  exact ⟨h.1, h.2 rfl⟩

theorem doRunScriptLoop_spec {σ ρ γ : Type}
    (f : σ → Except QueryError (ρ × List γ)) :
    ∀ (ps : List σ) (rs : List (ρ × List γ)) (res : ρ) (cls : List γ),
      mapExcept f ps = .ok rs →
      doRunScriptLoop f ps res cls =
        .ok ((rs.map Prod.fst).getLastD res,
          cls ++ (rs.map Prod.snd).flatten) := by
  intro ps
  induction ps with
  | nil =>
    intro rs res cls h
    simp only [mapExcept] at h
    cases h
    simp [doRunScriptLoop]
  | cons p ps ih =>
    intro rs res cls h
    unfold mapExcept at h
    cases hf : f p with
    | error e =>
      rw [hf] at h
      exact Except.noConfusion h
    | ok rc =>
      rw [hf] at h
      cases hps : mapExcept f ps with
      | error e =>
        rw [hps] at h
        exact Except.noConfusion h
      | ok rs' =>
        rw [hps] at h
        simp only [Except.ok.injEq] at h
        have hloop : doRunScriptLoop f (p :: ps) res cls =
            doRunScriptLoop f ps rc.1 (cls ++ rc.2) := by
          conv_lhs => unfold doRunScriptLoop
          rw [hf]
        rw [hloop, ih rs' rc.1 (cls ++ rc.2) hps, ← h]
        rw [List.map_cons, List.getLastD_cons, List.map_cons,
          List.flatten_cons, List.append_assoc]

/-- C10: when a script has several query statements that all succeed,
`do_run_script` returns only the result of the last one — every earlier
statement's result is overwritten — while the cleanups of all statements
are kept and returned together (each statement was still executed). -/
theorem c10_last_result {σ ρ γ : Type} (jnull : ρ)
    (f : σ → Except QueryError (ρ × List γ)) (ps : List σ)
    (rs : List (ρ × List γ)) (h : mapExcept f ps = .ok rs) :
    Db.do_run_script jnull f ps =
      .ok ((rs.map Prod.fst).getLastD jnull, (rs.map Prod.snd).flatten) := by
  unfold Db.do_run_script
  rw [doRunScriptLoop_spec f ps rs jnull [] h]
  simp

/-- Witness for C10: three statements returning 1, 2, 3 — the script
returns 3 with all three cleanups accumulated. -/
theorem c10_last_result_witness :
    Db.do_run_script (0 : Nat)
        (fun n : Nat =>
          (Except.ok (n, [n]) : Except QueryError (Nat × List Nat)))
        [1, 2, 3] = .ok (3, [1, 2, 3]) := by
  have h := c10_last_result 0
    (fun n : Nat =>
      (Except.ok (n, [n]) : Except QueryError (Nat × List Nat)))
    [1, 2, 3] [(1, [1]), (2, [2]), (3, [3])] rfl
  simpa using h
